import Mathlib

/-!
Shallow embedding of the optimizer update-rule composition system of the
`telaugesa` repository (`telaugesa/optimize.py` and `telaugesa/model.py`).

The optimizers build an `OrderedDict` mapping theano shared variables
(parameters and per-parameter auxiliary state) to the symbolic expression
computing their next value.  We embed:

* a shared variable as a `Key` (a parameter `param i`, or the auxiliary
  state created for parameter `i`: `velocity i` for the momentum wrappers,
  `accu i` / `deltaAccu i` for adagrad and adadelta; the Python code creates
  these as fresh `theano.shared` zero arrays, so they are distinct from every
  parameter);
* a symbolic expression as a function `Expr := Env → ℚ` from a valuation of
  the shared variables to its (elementwise, modelled scalar) value;
* the gradient expressions `T.grad(cost, params)` of the external autodiff
  black box as an opaque family `grad : Nat → Expr`;
* the elementwise `T.sqrt` of the external tensor library as an opaque
  function `sq : ℚ → ℚ`;
* the `OrderedDict` as an association list with OrderedDict assignment
  semantics: assigning to an existing key replaces its value in place,
  assigning to a new key appends it;
* one training step of a compiled theano function with this update map as
  `stepEnv`: every expression is evaluated in the old environment, and all
  shared variables are updated simultaneously.
-/

namespace Telaugesa

/-- A theano shared variable: either the `i`-th model parameter or a piece of
auxiliary optimizer state created for the `i`-th parameter. -/
inductive Key where
  | param (i : Nat)
  | velocity (i : Nat)
  | accu (i : Nat)
  | deltaAccu (i : Nat)
deriving DecidableEq, Repr

/-- A valuation of the shared variables (the numeric contents of each shared
variable at some point of the training run). -/
abbrev Env := Key → ℚ

/-- A symbolic expression, embedded shallowly as its evaluation function. -/
abbrev Expr := Env → ℚ

/-- The `OrderedDict` of updates: an association list from shared variables to
the expression computing their next value. -/
abbrev UpdateMap := List (Key × Expr)

/-- `updates[k]` read: the value at the first occurrence of `k` (keys built by
`insertUM` are unique, as in `OrderedDict`). -/
def lookupUM : UpdateMap → Key → Option Expr
  | [], _ => none
  | (k', v) :: rest, k => if k' = k then some v else lookupUM rest k

/-- `updates[k] = v` assignment with `OrderedDict` semantics: an existing key
keeps its position and gets the new value; a new key is appended. -/
def insertUM : UpdateMap → Key → Expr → UpdateMap
  | [], k, v => [(k, v)]
  | (k', v') :: rest, k, v =>
      if k' = k then (k, v) :: rest else (k', v') :: insertUM rest k v

/-- One optimization step of a compiled function carrying the update map `m`:
each updated shared variable takes the value of its expression in the old
environment; shared variables without an entry are unchanged. -/
def stepEnv (m : UpdateMap) (env : Env) : Env :=
  fun k =>
    match lookupUM m k with
    | some e => e env
    | none => env k

theorem lookupUM_insertUM_self (m : UpdateMap) (k : Key) (v : Expr) :
    lookupUM (insertUM m k v) k = some v := by
  induction m with
  | nil => simp [insertUM, lookupUM]
  | cons hd tl ih =>
      obtain ⟨k', v'⟩ := hd
      by_cases h : k' = k
      · simp [insertUM, h, lookupUM]
      · simp [insertUM, h, lookupUM, ih]

theorem lookupUM_insertUM_ne (m : UpdateMap) (k k' : Key) (v : Expr)
    (h : k' ≠ k) : lookupUM (insertUM m k v) k' = lookupUM m k' := by
  have h' : ¬k = k' := fun hk => h hk.symm
  induction m with
  | nil => simp [insertUM, lookupUM, h']
  | cons hd tl ih =>
      obtain ⟨k₀, v₀⟩ := hd
      by_cases h0 : k₀ = k
      · subst h0
        simp [insertUM, lookupUM, h']
      · simp [insertUM, h0, lookupUM, ih]

/-- Whether a shared variable is a model parameter (as opposed to auxiliary
optimizer state). -/
def Key.isParam : Key → Bool
  | .param _ => true
  | _ => false

/-! ## `sgd` (optimize.py lines 15–44)

```
if updates is None: updates=OrderedDict()
gparams=T.grad(cost, params)
for param, gparam in zip(params, gparams):
    updates[param] = param - learning_rate * gparam
return updates
```
The cost enters only through `T.grad`, so the rule is embedded directly over
the opaque gradient family `grad`. -/

/-- The expression `param - learning_rate * gparam` inserted by `sgd`. -/
def sgdEntry (grad : Nat → Expr) (lr : ℚ) (i : Nat) : Expr :=
  fun env => env (Key.param i) - lr * grad i env

/-- The `for param, gparam in zip(params, gparams)` loop of `sgd`. -/
def sgdLoop (grad : Nat → Expr) (lr : ℚ) (u : UpdateMap) : List Nat → UpdateMap
  | [] => u
  | i :: rest => sgdLoop grad lr (insertUM u (Key.param i) (sgdEntry grad lr i)) rest

/-- `sgd(cost, params, updates, learning_rate)`; `updates = none` models the
Python default `updates=None`, replaced by a fresh empty `OrderedDict`. -/
def sgd (grad : Nat → Expr) (ps : List Nat) (updates : Option UpdateMap)
    (lr : ℚ) : UpdateMap :=
  sgdLoop grad lr (updates.getD []) ps

theorem sgdLoop_lookup_of_ne (grad : Nat → Expr) (lr : ℚ) (k : Key) :
    ∀ (ps : List Nat) (u : UpdateMap), (∀ j ∈ ps, k ≠ Key.param j) →
      lookupUM (sgdLoop grad lr u ps) k = lookupUM u k := by
  intro ps
  induction ps with
  | nil => intro u _; rfl
  | cons j rest ih =>
      intro u hk
      have hj : k ≠ Key.param j := hk j (by simp)
      rw [sgdLoop, ih _ (fun a ha => hk a (by simp [ha])),
        lookupUM_insertUM_ne _ _ _ _ hj]

theorem sgdLoop_lookup_mem (grad : Nat → Expr) (lr : ℚ) (i : Nat) :
    ∀ (ps : List Nat) (u : UpdateMap), i ∈ ps →
      lookupUM (sgdLoop grad lr u ps) (Key.param i) = some (sgdEntry grad lr i) := by
  intro ps
  induction ps with
  | nil => intro u h; cases h
  | cons j rest ih =>
      intro u hmem
      by_cases hr : i ∈ rest
      · rw [sgdLoop]; exact ih _ hr
      · have hij : i = j := by
          rcases List.mem_cons.mp hmem with h | h
          · exact h
          · exact absurd h hr
        subst hij
        have hne : ∀ a ∈ rest, Key.param i ≠ Key.param a := by
          intro a ha h
          cases h
          exact hr ha
        rw [sgdLoop, sgdLoop_lookup_of_ne grad lr (Key.param i) rest _ hne,
          lookupUM_insertUM_self]

/-! ## Momentum wrappers (optimize.py lines 46–108)

`apply_momentum(updates, params, momentum=0.)`:
```
updates=OrderedDict(updates)
for param in params:
    velocity=theano.shared(np.zeros(value.shape, ...))
    x=momentum*velocity+updates[param]
    updates[velocity]=x-param
    updates[param]=x
return updates
```
`apply_nestrov_momentum(updates, params, momentum=None)`:
```
updates=OrderedDict(updates)
for param in params:
    velocity=theano.shared(np.zeros(value.shape, ...))
    x=momentum*velocity+updates[param]-param
    updates[velocity]=x
    updates[param]=momentum*x+updates[param]
return updates
```
The `momentum : Option ℚ` argument models the optional Python keyword:
`none` means the caller did not supply one.  `apply_momentum` then uses its
default `0.`; `apply_nestrov_momentum`'s default is `None`, and the loop body
`momentum*velocity` raises a type error on `None`, embedded as `none`.
The read `updates[param]` raises `KeyError` on a missing key, embedded as
`none`; the per-iteration second read in the Nesterov body is embedded as a
genuine second lookup after the velocity write, as in the source.  The
`OrderedDict(updates)` copy is the identity on dictionary contents; see
`apply_momentum_heap` below for the object-level (aliasing) semantics. -/

/-- The expression `x = momentum*velocity + updates[param]` of
`apply_momentum`, with `b` the pending update read from the map. -/
def momentumX (mo : ℚ) (i : Nat) (b : Expr) : Expr :=
  fun env => mo * env (Key.velocity i) + b env

/-- One iteration of the `apply_momentum` loop over `param i`. -/
def momentumBody (mo : ℚ) (u : UpdateMap) (i : Nat) : Option UpdateMap :=
  match lookupUM u (Key.param i) with
  | none => none
  | some b =>
      some (insertUM
        (insertUM u (Key.velocity i)
          (fun env => momentumX mo i b env - env (Key.param i)))
        (Key.param i) (momentumX mo i b))

/-- The `for param in params` loop of `apply_momentum`. -/
def momentumLoop (mo : ℚ) (u : UpdateMap) : List Nat → Option UpdateMap
  | [] => some u
  | i :: rest =>
      match momentumBody mo u i with
      | none => none
      | some u1 => momentumLoop mo u1 rest

/-- `apply_momentum(updates, params, momentum=0.)`. -/
def apply_momentum (updates : UpdateMap) (ps : List Nat)
    (momentum : Option ℚ) : Option UpdateMap :=
  momentumLoop (momentum.getD 0) updates ps

/-- The expression `x = momentum*velocity + updates[param] - param` of
`apply_nestrov_momentum`, with `b` the pending update read from the map. -/
def nestrovX (mo : ℚ) (i : Nat) (b : Expr) : Expr :=
  fun env => mo * env (Key.velocity i) + b env - env (Key.param i)

/-- One iteration of the `apply_nestrov_momentum` loop over `param i`.  With
`momentum = none` (Python default `None`) the product `momentum*velocity`
fails.  The final assignment re-reads `updates[param]` from the map after the
velocity write, as in the source. -/
def nestrovBody (momentum : Option ℚ) (u : UpdateMap) (i : Nat) :
    Option UpdateMap :=
  match momentum with
  | none => none
  | some mo =>
      match lookupUM u (Key.param i) with
      | none => none
      | some b =>
          let u1 := insertUM u (Key.velocity i) (nestrovX mo i b)
          match lookupUM u1 (Key.param i) with
          | none => none
          | some b2 =>
              some (insertUM u1 (Key.param i)
                (fun env => mo * nestrovX mo i b env + b2 env))

/-- The `for param in params` loop of `apply_nestrov_momentum`. -/
def nestrovLoop (momentum : Option ℚ) (u : UpdateMap) :
    List Nat → Option UpdateMap
  | [] => some u
  | i :: rest =>
      match nestrovBody momentum u i with
      | none => none
      | some u1 => nestrovLoop momentum u1 rest

/-- `apply_nestrov_momentum(updates, params, momentum=None)`. -/
def apply_nestrov_momentum (updates : UpdateMap) (ps : List Nat)
    (momentum : Option ℚ) : Option UpdateMap :=
  nestrovLoop momentum updates ps

theorem momentumLoop_lookup_of_ne (mo : ℚ) (k : Key) :
    ∀ (ps : List Nat) (u r : UpdateMap), momentumLoop mo u ps = some r →
      (∀ j ∈ ps, k ≠ Key.param j ∧ k ≠ Key.velocity j) →
      lookupUM r k = lookupUM u k := by
  intro ps
  induction ps with
  | nil =>
      intro u r hr _
      cases hr
      rfl
  | cons j rest ih =>
      intro u r hr hk
      rw [momentumLoop] at hr
      rcases hb : momentumBody mo u j with _ | u1
      · rw [hb] at hr; cases hr
      · rw [hb] at hr
        have hrest := ih u1 r hr (fun a ha => hk a (by simp [ha]))
        rw [hrest]
        rcases hlk : lookupUM u (Key.param j) with _ | b
        · rw [momentumBody, hlk] at hb; cases hb
        · rw [momentumBody, hlk] at hb
          cases hb
          rw [lookupUM_insertUM_ne _ _ _ _ (hk j (by simp)).1,
            lookupUM_insertUM_ne _ _ _ _ (hk j (by simp)).2]

theorem momentumLoop_spec (mo : ℚ) :
    ∀ (ps : List Nat) (u : UpdateMap), ps.Nodup →
      (∀ j ∈ ps, (lookupUM u (Key.param j)).isSome) →
      ∃ r, momentumLoop mo u ps = some r ∧
        ∀ i ∈ ps, ∀ b, lookupUM u (Key.param i) = some b →
          lookupUM r (Key.param i) = some (momentumX mo i b) ∧
          lookupUM r (Key.velocity i)
            = some (fun env => momentumX mo i b env - env (Key.param i)) := by
  intro ps
  induction ps with
  | nil =>
      intro u _ _
      exact ⟨u, rfl, by simp⟩
  | cons j rest ih =>
      intro u hnd hall
      have hndr := (List.nodup_cons.mp hnd).2
      have hjr : j ∉ rest := (List.nodup_cons.mp hnd).1
      rcases hlk : lookupUM u (Key.param j) with _ | b
      · exact absurd (hall j (by simp)) (by simp [hlk])
      · set u1 : UpdateMap :=
          insertUM (insertUM u (Key.velocity j)
            (fun env => momentumX mo j b env - env (Key.param j)))
            (Key.param j) (momentumX mo j b) with hu1
        have hpres : ∀ a, a ≠ j →
            lookupUM u1 (Key.param a) = lookupUM u (Key.param a) := by
          intro a ha
          rw [hu1, lookupUM_insertUM_ne _ _ _ _ (by simp [ha]),
            lookupUM_insertUM_ne _ _ _ _ (by simp)]
        have hall1 : ∀ a ∈ rest, (lookupUM u1 (Key.param a)).isSome := by
          intro a ha
          rw [hpres a (fun h => hjr (h ▸ ha))]
          exact hall a (by simp [ha])
        obtain ⟨r, hrloop, hrchar⟩ := ih u1 hndr hall1
        refine ⟨r, ?_, ?_⟩
        · rw [momentumLoop, momentumBody, hlk]
          show momentumLoop mo
            (insertUM (insertUM u (Key.velocity j)
              (fun env => momentumX mo j b env - env (Key.param j)))
              (Key.param j) (momentumX mo j b)) rest = some r
          rw [← hu1]
          exact hrloop
        · intro i hi b' hb'
          rcases List.mem_cons.mp hi with hij | hir
          · subst hij
            rw [hlk] at hb'
            cases hb'
            have hfr := momentumLoop_lookup_of_ne mo (Key.param i) rest u1 r
              hrloop (by
                intro a ha
                have : i ≠ a := fun h => hjr (h ▸ ha)
                simp [this])
            have hfrv := momentumLoop_lookup_of_ne mo (Key.velocity i) rest u1 r
              hrloop (by
                intro a ha
                have : i ≠ a := fun h => hjr (h ▸ ha)
                simp [this])
            constructor
            · rw [hfr, hu1, lookupUM_insertUM_self]
            · rw [hfrv, hu1, lookupUM_insertUM_ne _ _ _ _ (by simp),
                lookupUM_insertUM_self]
          · have : lookupUM u1 (Key.param i) = some b' := by
              rw [hpres i (fun h => hjr (h ▸ hir))]
              exact hb'
            exact hrchar i hir b' this

theorem nestrovLoop_lookup_of_ne (momentum : Option ℚ) (k : Key) :
    ∀ (ps : List Nat) (u r : UpdateMap), nestrovLoop momentum u ps = some r →
      (∀ j ∈ ps, k ≠ Key.param j ∧ k ≠ Key.velocity j) →
      lookupUM r k = lookupUM u k := by
  intro ps
  induction ps with
  | nil =>
      intro u r hr _
      cases hr
      rfl
  | cons j rest ih =>
      intro u r hr hk
      rw [nestrovLoop] at hr
      rcases hb : nestrovBody momentum u j with _ | u1
      · rw [hb] at hr; cases hr
      · rw [hb] at hr
        have hrest := ih u1 r hr (fun a ha => hk a (by simp [ha]))
        rw [hrest]
        rcases momentum with _ | mo
        · rw [nestrovBody] at hb; cases hb
        · rcases hlk : lookupUM u (Key.param j) with _ | b
          · rw [nestrovBody, hlk] at hb; cases hb
          · rw [nestrovBody, hlk] at hb
            simp only [lookupUM_insertUM_ne _ _ _ _
              (fun h : Key.param j = Key.velocity j => by cases h), hlk] at hb
            cases hb
            rw [lookupUM_insertUM_ne _ _ _ _ (hk j (by simp)).1,
              lookupUM_insertUM_ne _ _ _ _ (hk j (by simp)).2]

theorem nestrovLoop_spec (mo : ℚ) :
    ∀ (ps : List Nat) (u : UpdateMap), ps.Nodup →
      (∀ j ∈ ps, (lookupUM u (Key.param j)).isSome) →
      ∃ r, nestrovLoop (some mo) u ps = some r ∧
        ∀ i ∈ ps, ∀ b, lookupUM u (Key.param i) = some b →
          lookupUM r (Key.velocity i) = some (nestrovX mo i b) ∧
          lookupUM r (Key.param i)
            = some (fun env => mo * nestrovX mo i b env + b env) := by
  intro ps
  induction ps with
  | nil =>
      intro u _ _
      exact ⟨u, rfl, by simp⟩
  | cons j rest ih =>
      intro u hnd hall
      have hndr := (List.nodup_cons.mp hnd).2
      have hjr : j ∉ rest := (List.nodup_cons.mp hnd).1
      rcases hlk : lookupUM u (Key.param j) with _ | b
      · exact absurd (hall j (by simp)) (by simp [hlk])
      · have hreread : lookupUM (insertUM u (Key.velocity j) (nestrovX mo j b))
            (Key.param j) = some b := by
          rw [lookupUM_insertUM_ne _ _ _ _
            (fun h : Key.param j = Key.velocity j => by cases h), hlk]
        set u1 : UpdateMap :=
          insertUM (insertUM u (Key.velocity j) (nestrovX mo j b))
            (Key.param j) (fun env => mo * nestrovX mo j b env + b env) with hu1
        have hbody : nestrovBody (some mo) u j = some u1 := by
          rw [nestrovBody, hlk]
          simp only [hreread]
        have hpres : ∀ a, a ≠ j →
            lookupUM u1 (Key.param a) = lookupUM u (Key.param a) := by
          intro a ha
          rw [hu1, lookupUM_insertUM_ne _ _ _ _ (by simp [ha]),
            lookupUM_insertUM_ne _ _ _ _ (by simp)]
        have hall1 : ∀ a ∈ rest, (lookupUM u1 (Key.param a)).isSome := by
          intro a ha
          rw [hpres a (fun h => hjr (h ▸ ha))]
          exact hall a (by simp [ha])
        obtain ⟨r, hrloop, hrchar⟩ := ih u1 hndr hall1
        refine ⟨r, ?_, ?_⟩
        · rw [nestrovLoop, hbody]
          exact hrloop
        · intro i hi b' hb'
          rcases List.mem_cons.mp hi with hij | hir
          · subst hij
            rw [hlk] at hb'
            cases hb'
            have hfr := nestrovLoop_lookup_of_ne (some mo) (Key.param i) rest u1
              r hrloop (by
                intro a ha
                have : i ≠ a := fun h => hjr (h ▸ ha)
                simp [this])
            have hfrv := nestrovLoop_lookup_of_ne (some mo) (Key.velocity i) rest
              u1 r hrloop (by
                intro a ha
                have : i ≠ a := fun h => hjr (h ▸ ha)
                simp [this])
            constructor
            · rw [hfrv, hu1, lookupUM_insertUM_ne _ _ _ _ (by simp),
                lookupUM_insertUM_self]
            · rw [hfr, hu1, lookupUM_insertUM_self]
          · have : lookupUM u1 (Key.param i) = some b' := by
              rw [hpres i (fun h => hjr (h ▸ hir))]
              exact hb'
            exact hrchar i hir b' this

/-! ## `adagrad` (optimize.py lines 110–148)

```
for param, gparam in zip(params, gparams):
    accu=theano.shared(np.zeros(value.shape, ...))
    accu_new=accu+gparam**2
    updates[accu]=accu_new
    updates[param]=param-(learning_rate*gparam/T.sqrt(accu_new+eps))
```
`sq` is the opaque elementwise `T.sqrt` of the tensor library. -/

/-- The expression `accu_new = accu + gparam**2` of `adagrad`. -/
def adagradAccuEntry (grad : Nat → Expr) (i : Nat) : Expr :=
  fun env => env (Key.accu i) + grad i env ^ 2

/-- The expression `param - (learning_rate*gparam/T.sqrt(accu_new+eps))` of
`adagrad`. -/
def adagradParamEntry (grad : Nat → Expr) (lr eps : ℚ) (sq : ℚ → ℚ)
    (i : Nat) : Expr :=
  fun env =>
    env (Key.param i) - lr * grad i env / sq (adagradAccuEntry grad i env + eps)

/-- The `for param, gparam in zip(params, gparams)` loop of `adagrad`. -/
def adagradLoop (grad : Nat → Expr) (lr eps : ℚ) (sq : ℚ → ℚ)
    (u : UpdateMap) : List Nat → UpdateMap
  | [] => u
  | i :: rest =>
      adagradLoop grad lr eps sq
        (insertUM (insertUM u (Key.accu i) (adagradAccuEntry grad i))
          (Key.param i) (adagradParamEntry grad lr eps sq i)) rest

/-- `adagrad(cost, params, updates, learning_rate, eps)`. -/
def adagrad (grad : Nat → Expr) (ps : List Nat) (updates : Option UpdateMap)
    (lr eps : ℚ) (sq : ℚ → ℚ) : UpdateMap :=
  adagradLoop grad lr eps sq (updates.getD []) ps

theorem adagradLoop_lookup_of_ne (grad : Nat → Expr) (lr eps : ℚ)
    (sq : ℚ → ℚ) (k : Key) :
    ∀ (ps : List Nat) (u : UpdateMap),
      (∀ j ∈ ps, k ≠ Key.accu j ∧ k ≠ Key.param j) →
      lookupUM (adagradLoop grad lr eps sq u ps) k = lookupUM u k := by
  intro ps
  induction ps with
  | nil => intro u _; rfl
  | cons j rest ih =>
      intro u hk
      rw [adagradLoop, ih _ (fun a ha => hk a (by simp [ha])),
        lookupUM_insertUM_ne _ _ _ _ (hk j (by simp)).2,
        lookupUM_insertUM_ne _ _ _ _ (hk j (by simp)).1]

theorem adagradLoop_lookup_mem (grad : Nat → Expr) (lr eps : ℚ)
    (sq : ℚ → ℚ) (i : Nat) :
    ∀ (ps : List Nat) (u : UpdateMap), i ∈ ps →
      lookupUM (adagradLoop grad lr eps sq u ps) (Key.accu i)
        = some (adagradAccuEntry grad i) ∧
      lookupUM (adagradLoop grad lr eps sq u ps) (Key.param i)
        = some (adagradParamEntry grad lr eps sq i) := by
  intro ps
  induction ps with
  | nil => intro u h; cases h
  | cons j rest ih =>
      intro u hmem
      by_cases hr : i ∈ rest
      · rw [adagradLoop]; exact ih _ hr
      · have hij : i = j := by
          rcases List.mem_cons.mp hmem with h | h
          · exact h
          · exact absurd h hr
        subst hij
        have hnea : ∀ a ∈ rest, Key.accu i ≠ Key.accu a ∧ Key.accu i ≠ Key.param a := by
          intro a ha
          refine ⟨?_, ?_⟩
          · intro h; cases h; exact hr ha
          · intro h; cases h
        have hnep : ∀ a ∈ rest, Key.param i ≠ Key.accu a ∧ Key.param i ≠ Key.param a := by
          intro a ha
          refine ⟨?_, ?_⟩
          · intro h; cases h
          · intro h; cases h; exact hr ha
        rw [adagradLoop]
        constructor
        · rw [adagradLoop_lookup_of_ne grad lr eps sq (Key.accu i) rest _ hnea,
            lookupUM_insertUM_ne _ _ _ _ (fun h : Key.accu i = Key.param i => by cases h),
            lookupUM_insertUM_self]
        · rw [adagradLoop_lookup_of_ne grad lr eps sq (Key.param i) rest _ hnep,
            lookupUM_insertUM_self]

/-! ## `adadelta` (optimize.py lines 150–199)

```
for param, gparam in zip(params, gparams):
    accu=theano.shared(np.zeros(value.shape, ...))
    delta_accu=theano.shared(np.zeros(value.shape, ...))
    accu_new=rho*accu+(1-rho)*gparam**2
    updates[accu]=accu_new
    update=(gparam*T.sqrt(delta_accu+eps)/T.sqrt(accu_new+eps))
    updates[param]=param-learning_rate*update
    delta_accu_new=rho*delta_accu+(1-rho)*update**2
    updates[delta_accu]=delta_accu_new
```
-/

/-- The expression `accu_new = rho*accu+(1-rho)*gparam**2` of `adadelta`. -/
def adadeltaAccuEntry (grad : Nat → Expr) (rho : ℚ) (i : Nat) : Expr :=
  fun env => rho * env (Key.accu i) + (1 - rho) * grad i env ^ 2

/-- The expression
`update = gparam*T.sqrt(delta_accu+eps)/T.sqrt(accu_new+eps)` of `adadelta`:
the raw update, not yet scaled by the learning rate. -/
def adadeltaUpdate (grad : Nat → Expr) (eps rho : ℚ) (sq : ℚ → ℚ)
    (i : Nat) : Expr :=
  fun env =>
    grad i env * sq (env (Key.deltaAccu i) + eps)
      / sq (adadeltaAccuEntry grad rho i env + eps)

/-- The expression `param - learning_rate*update` of `adadelta`. -/
def adadeltaParamEntry (grad : Nat → Expr) (lr eps rho : ℚ) (sq : ℚ → ℚ)
    (i : Nat) : Expr :=
  fun env => env (Key.param i) - lr * adadeltaUpdate grad eps rho sq i env

/-- The expression `delta_accu_new = rho*delta_accu+(1-rho)*update**2` of
`adadelta`, built from the raw `update`. -/
def adadeltaDeltaEntry (grad : Nat → Expr) (eps rho : ℚ) (sq : ℚ → ℚ)
    (i : Nat) : Expr :=
  fun env =>
    rho * env (Key.deltaAccu i) + (1 - rho) * adadeltaUpdate grad eps rho sq i env ^ 2

/-- The `for param, gparam in zip(params, gparams)` loop of `adadelta`. -/
def adadeltaLoop (grad : Nat → Expr) (lr eps rho : ℚ) (sq : ℚ → ℚ)
    (u : UpdateMap) : List Nat → UpdateMap
  | [] => u
  | i :: rest =>
      adadeltaLoop grad lr eps rho sq
        (insertUM
          (insertUM
            (insertUM u (Key.accu i) (adadeltaAccuEntry grad rho i))
            (Key.param i) (adadeltaParamEntry grad lr eps rho sq i))
          (Key.deltaAccu i) (adadeltaDeltaEntry grad eps rho sq i)) rest

/-- `adadelta(cost, params, updates, learning_rate, eps, rho)`. -/
def adadelta (grad : Nat → Expr) (ps : List Nat) (updates : Option UpdateMap)
    (lr eps rho : ℚ) (sq : ℚ → ℚ) : UpdateMap :=
  adadeltaLoop grad lr eps rho sq (updates.getD []) ps

theorem adadeltaLoop_lookup_of_ne (grad : Nat → Expr) (lr eps rho : ℚ)
    (sq : ℚ → ℚ) (k : Key) :
    ∀ (ps : List Nat) (u : UpdateMap),
      (∀ j ∈ ps, k ≠ Key.accu j ∧ k ≠ Key.param j ∧ k ≠ Key.deltaAccu j) →
      lookupUM (adadeltaLoop grad lr eps rho sq u ps) k = lookupUM u k := by
  intro ps
  induction ps with
  | nil => intro u _; rfl
  | cons j rest ih =>
      intro u hk
      rw [adadeltaLoop, ih _ (fun a ha => hk a (by simp [ha])),
        lookupUM_insertUM_ne _ _ _ _ (hk j (by simp)).2.2,
        lookupUM_insertUM_ne _ _ _ _ (hk j (by simp)).2.1,
        lookupUM_insertUM_ne _ _ _ _ (hk j (by simp)).1]

theorem adadeltaLoop_lookup_mem (grad : Nat → Expr) (lr eps rho : ℚ)
    (sq : ℚ → ℚ) (i : Nat) :
    ∀ (ps : List Nat) (u : UpdateMap), i ∈ ps →
      lookupUM (adadeltaLoop grad lr eps rho sq u ps) (Key.param i)
        = some (adadeltaParamEntry grad lr eps rho sq i) ∧
      lookupUM (adadeltaLoop grad lr eps rho sq u ps) (Key.deltaAccu i)
        = some (adadeltaDeltaEntry grad eps rho sq i) ∧
      lookupUM (adadeltaLoop grad lr eps rho sq u ps) (Key.accu i)
        = some (adadeltaAccuEntry grad rho i) := by
  intro ps
  induction ps with
  | nil => intro u h; cases h
  | cons j rest ih =>
      intro u hmem
      by_cases hr : i ∈ rest
      · rw [adadeltaLoop]; exact ih _ hr
      · have hij : i = j := by
          rcases List.mem_cons.mp hmem with h | h
          · exact h
          · exact absurd h hr
        subst hij
        have hnep : ∀ a ∈ rest, Key.param i ≠ Key.accu a ∧ Key.param i ≠ Key.param a
            ∧ Key.param i ≠ Key.deltaAccu a := by
          intro a ha
          refine ⟨?_, ?_, ?_⟩
          · intro h; cases h
          · intro h; cases h; exact hr ha
          · intro h; cases h
        have hned : ∀ a ∈ rest, Key.deltaAccu i ≠ Key.accu a
            ∧ Key.deltaAccu i ≠ Key.param a ∧ Key.deltaAccu i ≠ Key.deltaAccu a := by
          intro a ha
          refine ⟨?_, ?_, ?_⟩
          · intro h; cases h
          · intro h; cases h
          · intro h; cases h; exact hr ha
        have hnea : ∀ a ∈ rest, Key.accu i ≠ Key.accu a
            ∧ Key.accu i ≠ Key.param a ∧ Key.accu i ≠ Key.deltaAccu a := by
          intro a ha
          refine ⟨?_, ?_, ?_⟩
          · intro h; cases h; exact hr ha
          · intro h; cases h
          · intro h; cases h
        rw [adadeltaLoop]
        refine ⟨?_, ?_, ?_⟩
        · rw [adadeltaLoop_lookup_of_ne grad lr eps rho sq (Key.param i) rest _ hnep,
            lookupUM_insertUM_ne _ _ _ _ (fun h : Key.param i = Key.deltaAccu i => by cases h),
            lookupUM_insertUM_self]
        · rw [adadeltaLoop_lookup_of_ne grad lr eps rho sq (Key.deltaAccu i) rest _ hned,
            lookupUM_insertUM_self]
        · rw [adadeltaLoop_lookup_of_ne grad lr eps rho sq (Key.accu i) rest _ hnea,
            lookupUM_insertUM_ne _ _ _ _ (fun h : Key.accu i = Key.deltaAccu i => by cases h),
            lookupUM_insertUM_ne _ _ _ _ (fun h : Key.accu i = Key.param i => by cases h),
            lookupUM_insertUM_self]

/-! ## `gd_updates` (optimize.py lines 201–243)

```
if method=="adagrad": updates=adagrad(...)
elif method=="adadelta": updates=adadelta(...)
elif method=="sgd":
    updates=sgd(...)
    if momentum is not None:
        if nesterov==True: updates=apply_nestrov_momentum(updates, params, momentum=momentum)
        else: updates=apply_momentum(updates, params, momentum=momentum)
return updates
```
The returned value is an `Option UpdateMap` (`none` models the Python `None`
that flows through when no rule ran and no map was passed); the outer
`Option` models an exception escaping from a momentum wrapper. -/

/-- `gd_updates(cost, params, updates, momentum, nesterov, max_norm,
learning_rate, eps, rho, method)` (`max_norm` is accepted and never used by
the source, so it is omitted here). -/
def gd_updates (grad : Nat → Expr) (ps : List Nat) (updates : Option UpdateMap)
    (momentum : Option ℚ) (nesterov : Bool) (lr eps rho : ℚ) (sq : ℚ → ℚ)
    (method : String) : Option (Option UpdateMap) :=
  if method = "adagrad" then
    some (some (adagrad grad ps updates lr eps sq))
  else if method = "adadelta" then
    some (some (adadelta grad ps updates lr eps rho sq))
  else if method = "sgd" then
    let u := sgd grad ps updates lr
    match momentum with
    | none => some (some u)
    | some mo =>
        if nesterov = true then
          Option.map some (apply_nestrov_momentum u ps (some mo))
        else
          Option.map some (apply_momentum u ps (some mo))
  else
    some updates

/-! ## Object-level semantics of the momentum wrappers

Python dictionaries are heap objects; `apply_momentum` and
`apply_nestrov_momentum` first execute `updates=OrderedDict(updates)`, which
allocates a new dictionary holding a copy of the entries, and all subsequent
writes of the loop target that new object.  To state that the caller's
dictionary is left untouched, we model a heap of dictionaries indexed by
addresses and run the wrappers against it. -/

/-- A heap of dictionary objects; the address of an object is its index. -/
structure Heap where
  dicts : List UpdateMap

/-- Dereference address `a`. -/
def Heap.get (h : Heap) (a : Nat) : Option UpdateMap :=
  h.dicts[a]?

/-- Overwrite the object at address `a`. -/
def Heap.put (h : Heap) (a : Nat) (d : UpdateMap) : Heap :=
  ⟨h.dicts.set a d⟩

/-- Allocate a fresh object holding `d`; returns the new heap and the fresh
address. -/
def Heap.alloc (h : Heap) (d : UpdateMap) : Heap × Nat :=
  (⟨h.dicts ++ [d]⟩, h.dicts.length)

/-- One loop iteration acting on the dictionary object at address `a`:
read it, run the per-parameter body, write the result back. -/
def heapStep (body : UpdateMap → Nat → Option UpdateMap) (a : Nat)
    (h : Heap) (i : Nat) : Option Heap :=
  match h.get a with
  | none => none
  | some u =>
      match body u i with
      | none => none
      | some u1 => some (h.put a u1)

/-- The wrapper loop over the object at address `a`. -/
def heapLoop (body : UpdateMap → Nat → Option UpdateMap) (a : Nat)
    (h : Heap) : List Nat → Option Heap
  | [] => some h
  | i :: rest =>
      match heapStep body a h i with
      | none => none
      | some h1 => heapLoop body a h1 rest

/-- `apply_momentum` on the heap: dereference the argument, allocate the
`OrderedDict(updates)` copy, run the loop against the copy, return its
address. -/
def apply_momentum_heap (h : Heap) (a : Nat) (ps : List Nat)
    (momentum : Option ℚ) : Option (Heap × Nat) :=
  match h.get a with
  | none => none
  | some d =>
      let al := h.alloc d
      match heapLoop (momentumBody (momentum.getD 0)) al.2 al.1 ps with
      | none => none
      | some h1 => some (h1, al.2)

/-- `apply_nestrov_momentum` on the heap, as `apply_momentum_heap`. -/
def apply_nestrov_momentum_heap (h : Heap) (a : Nat) (ps : List Nat)
    (momentum : Option ℚ) : Option (Heap × Nat) :=
  match h.get a with
  | none => none
  | some d =>
      let al := h.alloc d
      match heapLoop (nestrovBody momentum) al.2 al.1 ps with
      | none => none
      | some h1 => some (h1, al.2)

theorem Heap.get_put_ne (h : Heap) (a a' : Nat) (d : UpdateMap)
    (hne : a ≠ a') : Heap.get (Heap.put h a' d) a = Heap.get h a := by
  unfold Heap.get Heap.put
  exact List.getElem?_set_ne (fun he => hne he.symm)

theorem heapLoop_get_ne (body : UpdateMap → Nat → Option UpdateMap)
    (a' a : Nat) (hne : a ≠ a') :
    ∀ (ps : List Nat) (h h1 : Heap), heapLoop body a' h ps = some h1 →
      Heap.get h1 a = Heap.get h a := by
  intro ps
  induction ps with
  | nil =>
      intro h h1 hh
      cases hh
      rfl
  | cons i rest ih =>
      intro h h1 hh
      rw [heapLoop] at hh
      rcases hs : heapStep body a' h i with _ | h2
      · rw [hs] at hh; cases hh
      · rw [hs] at hh
        rw [ih h2 h1 hh]
        rcases hg : h.get a' with _ | u
        · rw [heapStep, hg] at hs; cases hs
        · rcases hb : body u i with _ | u1
          · simp only [heapStep, hg, hb] at hs; cases hs
          · simp only [heapStep, hg, hb, Option.some.injEq] at hs
            rw [← hs]
            exact Heap.get_put_ne h a a' u1 hne

theorem Heap.get_alloc_old (h : Heap) (d : UpdateMap) (a : Nat)
    (ha : a < h.dicts.length) : Heap.get (h.alloc d).1 a = Heap.get h a := by
  unfold Heap.get Heap.alloc
  simp [List.getElem?_append, ha]

/-! ## `model.py`: `AutoEncoder` (lines 55–83)

```
def __init__(self, layers=None):
    self.layers=layers
    self.check()
def check(self):
    assert self.layers[0].in_dim==self.layers[-1].out_dim, ...
    for layer in self.layers:
        assert hasattr(layer, 'params'), ...
```
An MLP layer is abstracted by the attributes `check` reads: its input and
output dimensions and whether it has a `params` attribute.  A failing
assertion (or the `IndexError` of `layers[0]` on an empty list) is an error
raised during `__init__`, embedded as `none`; the forward pass `fprop`
performs no dimension check at all.  -/

/-- The attributes of an MLP layer that `AutoEncoder.check` inspects. -/
structure Layer where
  in_dim : Nat
  out_dim : Nat
  has_params : Bool
deriving DecidableEq, Repr

/-- A successfully constructed `AutoEncoder`. -/
structure AutoEncoder where
  layers : List Layer
deriving DecidableEq, Repr

/-- The body of `AutoEncoder.check`: `layers[0].in_dim==layers[-1].out_dim`
and every layer has a `params` attribute. -/
def autoEncoderCheck (layers : List Layer) : Bool :=
  match layers.head?, layers.getLast? with
  | some first, some last =>
      decide (first.in_dim = last.out_dim) && layers.all (fun l => l.has_params)
  | _, _ => false

/-- `AutoEncoder.__init__`: store the layers and run `check`; `none` when
construction raises. -/
def AutoEncoder.construct (layers : List Layer) : Option AutoEncoder :=
  if autoEncoderCheck layers then some ⟨layers⟩ else none

/-! ## Claims -/

/-- C3: for every cost (entering only through its gradient family), every
parameter list and every learning rate, after `sgd` the update map sends each
parameter `p` with gradient `g` to exactly `p - lr * g`, and `sgd` touches no
key other than parameters, so it creates no auxiliary state entries. -/
theorem sgd_update_exact (grad : Nat → Expr) (ps : List Nat)
    (updates : Option UpdateMap) (lr : ℚ) :
    (∀ i ∈ ps, lookupUM (sgd grad ps updates lr) (Key.param i)
      = some (sgdEntry grad lr i)) ∧
    (∀ i env, sgdEntry grad lr i env = env (Key.param i) - lr * grad i env) ∧
    (∀ k, Key.isParam k = false →
      lookupUM (sgd grad ps updates lr) k = lookupUM (updates.getD []) k) := by
  refine ⟨?_, ?_, ?_⟩
  · intro i hi
    exact sgdLoop_lookup_mem grad lr i ps _ hi
  · intro i env
    rfl
  · intro k hk
    apply sgdLoop_lookup_of_ne
    intro j _
    cases k with
    | param a => simp [Key.isParam] at hk
    | velocity a => intro h; cases h
    | accu a => intro h; cases h
    | deltaAccu a => intro h; cases h

theorem sgd_update_exact_witness :
    (0 ∈ ([0] : List Nat)) ∧
    lookupUM (sgd (fun _ _ => 2) [0] none (1/2)) (Key.param 0)
      = some (sgdEntry (fun _ _ => 2) (1/2) 0) ∧
    Key.isParam (Key.velocity 0) = false ∧
    lookupUM (sgd (fun _ _ => 2) [0] none (1/2)) (Key.velocity 0) = none :=
  ⟨by decide, (sgd_update_exact (fun _ _ => 2) [0] none (1/2)).1 0 (by decide),
    rfl, (sgd_update_exact (fun _ _ => 2) [0] none (1/2)).2.2 (Key.velocity 0) rfl⟩

/-- C4: the `adagrad` accumulator entry is `accu + grad^2`, so at every
optimization step the accumulator's next value is greater than or equal to its
current value, across arbitrarily many iterated steps; the rule writes no
other expression to the accumulator. -/
theorem adagrad_accu_monotone (grad : Nat → Expr) (ps : List Nat)
    (updates : Option UpdateMap) (lr eps : ℚ) (sq : ℚ → ℚ) (i : Nat)
    (hi : i ∈ ps) :
    lookupUM (adagrad grad ps updates lr eps sq) (Key.accu i)
      = some (adagradAccuEntry grad i) ∧
    (∀ env, stepEnv (adagrad grad ps updates lr eps sq) env (Key.accu i)
      = env (Key.accu i) + grad i env ^ 2) ∧
    (∀ env, env (Key.accu i)
      ≤ stepEnv (adagrad grad ps updates lr eps sq) env (Key.accu i)) ∧
    (∀ env n, ((stepEnv (adagrad grad ps updates lr eps sq))^[n] env) (Key.accu i)
      ≤ ((stepEnv (adagrad grad ps updates lr eps sq))^[n + 1] env) (Key.accu i)) := by
  have hlk := (adagradLoop_lookup_mem grad lr eps sq i ps (updates.getD []) hi).1
  have hstep : ∀ env, stepEnv (adagrad grad ps updates lr eps sq) env (Key.accu i)
      = env (Key.accu i) + grad i env ^ 2 := by
    intro env
    unfold stepEnv
    rw [show lookupUM (adagrad grad ps updates lr eps sq) (Key.accu i)
      = some (adagradAccuEntry grad i) from hlk]
    rfl
  have hle : ∀ env, env (Key.accu i)
      ≤ stepEnv (adagrad grad ps updates lr eps sq) env (Key.accu i) := by
    intro env
    rw [hstep env]
    exact le_add_of_nonneg_right (sq_nonneg (grad i env))
  refine ⟨hlk, hstep, hle, ?_⟩
  intro env n
  rw [Function.iterate_succ_apply']
  exact hle _

theorem adagrad_accu_monotone_witness :
    (0 ∈ ([0] : List Nat)) ∧
    stepEnv (adagrad (fun _ _ => 3) [0] none (1/10) (1/1000000) id)
      (fun _ => 2) (Key.accu 0) = 11 ∧
    (2 : ℚ) ≤ stepEnv (adagrad (fun _ _ => 3) [0] none (1/10) (1/1000000) id)
      (fun _ => 2) (Key.accu 0) :=
  ⟨by decide,
    by
      rw [(adagrad_accu_monotone (fun _ _ => 3) [0] none (1/10) (1/1000000) id 0
        (by decide)).2.1 (fun _ => 2)]
      norm_num,
    (adagrad_accu_monotone (fun _ _ => 3) [0] none (1/10) (1/1000000) id 0
      (by decide)).2.2.1 (fun _ => 2)⟩

/-- C5: `adadelta` sends each parameter `p` to
`p - lr * grad * sqrt(delta_accu + eps) / sqrt(accu_new + eps)` with
`accu_new = rho*accu + (1-rho)*grad^2`, and the delta accumulator's next value
`rho*delta_accu + (1-rho)*update^2` is built from the unscaled `update`
(`grad * sqrt(delta_accu+eps)/sqrt(accu_new+eps)`), not from the
learning-rate-scaled step: the delta-accumulator entry does not depend on the
learning rate at all. -/
theorem adadelta_entries (grad : Nat → Expr) (ps : List Nat)
    (updates : Option UpdateMap) (lr eps rho : ℚ) (sq : ℚ → ℚ) (i : Nat)
    (hi : i ∈ ps) :
    lookupUM (adadelta grad ps updates lr eps rho sq) (Key.param i)
      = some (adadeltaParamEntry grad lr eps rho sq i) ∧
    (∀ env, adadeltaParamEntry grad lr eps rho sq i env
      = env (Key.param i) - lr * grad i env * sq (env (Key.deltaAccu i) + eps)
          / sq (rho * env (Key.accu i) + (1 - rho) * grad i env ^ 2 + eps)) ∧
    lookupUM (adadelta grad ps updates lr eps rho sq) (Key.deltaAccu i)
      = some (adadeltaDeltaEntry grad eps rho sq i) ∧
    (∀ env, adadeltaDeltaEntry grad eps rho sq i env
      = rho * env (Key.deltaAccu i)
          + (1 - rho) * adadeltaUpdate grad eps rho sq i env ^ 2) ∧
    (∀ lr', lookupUM (adadelta grad ps updates lr' eps rho sq) (Key.deltaAccu i)
      = lookupUM (adadelta grad ps updates lr eps rho sq) (Key.deltaAccu i)) := by
  refine ⟨(adadeltaLoop_lookup_mem grad lr eps rho sq i ps _ hi).1, ?_,
    (adadeltaLoop_lookup_mem grad lr eps rho sq i ps _ hi).2.1, ?_, ?_⟩
  · intro env
    show env (Key.param i) - lr * adadeltaUpdate grad eps rho sq i env = _
    unfold adadeltaUpdate adadeltaAccuEntry
    ring
  · intro env
    rfl
  · intro lr'
    exact ((adadeltaLoop_lookup_mem grad lr' eps rho sq i ps _ hi).2.1).trans
      ((adadeltaLoop_lookup_mem grad lr eps rho sq i ps _ hi).2.1).symm

theorem adadelta_entries_witness :
    (0 ∈ ([0] : List Nat)) ∧
    lookupUM (adadelta (fun _ _ => 3) [0] none (1/10) (1/1000000) (19/20) id)
      (Key.deltaAccu 0)
      = some (adadeltaDeltaEntry (fun _ _ => 3) (1/1000000) (19/20) id 0) ∧
    lookupUM (adadelta (fun _ _ => 3) [0] none 7 (1/1000000) (19/20) id)
      (Key.deltaAccu 0)
      = lookupUM (adadelta (fun _ _ => 3) [0] none (1/10) (1/1000000) (19/20) id)
        (Key.deltaAccu 0) :=
  ⟨by decide,
    (adadelta_entries (fun _ _ => 3) [0] none (1/10) (1/1000000) (19/20) id 0
      (by decide)).2.2.1,
    (adadelta_entries (fun _ _ => 3) [0] none (1/10) (1/1000000) (19/20) id 0
      (by decide)).2.2.2.2 7⟩

/-- C6: `gd_updates` with a method name other than `"sgd"`, `"adagrad"` and
`"adadelta"` falls through every branch of the dispatcher and returns its
`updates` argument unchanged without raising: no parameter receives an entry,
and with no map passed (`none`) the absent map comes back. -/
theorem gd_updates_unknown_method (grad : Nat → Expr) (ps : List Nat)
    (updates : Option UpdateMap) (momentum : Option ℚ) (nesterov : Bool)
    (lr eps rho : ℚ) (sq : ℚ → ℚ) (method : String)
    (h1 : method ≠ "adagrad") (h2 : method ≠ "adadelta") (h3 : method ≠ "sgd") :
    gd_updates grad ps updates momentum nesterov lr eps rho sq method
      = some updates := by
  simp [gd_updates, h1, h2, h3]

theorem gd_updates_unknown_method_witness :
    ("rmsprop" ≠ "adagrad") ∧
    gd_updates (fun _ _ => 2) [0] none none false (1/10) (1/1000000) (19/20) id
      "rmsprop" = some none :=
  ⟨by decide,
    gd_updates_unknown_method (fun _ _ => 2) [0] none none false (1/10)
      (1/1000000) (19/20) id "rmsprop" (by decide) (by decide) (by decide)⟩

/-- C1: for every parameter `p` with a pending entry `b` in the update map,
the Nesterov wrapper computes `x = momentum * velocity + b - p` (a delta, and
when the fresh velocity is zero `x = b - p`), sets `updates[velocity] = x`,
and sets `updates[param] = momentum * x + b` where `b` is the original pending
entry inserted by the base rule: the right-hand-side re-read of
`updates[param]` sees the base rule's value, not one modified by the
wrapper. -/
theorem nestrov_momentum_formula (m : UpdateMap) (ps : List Nat) (mo : ℚ)
    (i : Nat) (b : Expr) (hnd : ps.Nodup)
    (hall : ∀ j ∈ ps, (lookupUM m (Key.param j)).isSome)
    (hi : i ∈ ps) (hb : lookupUM m (Key.param i) = some b) :
    ∃ r, apply_nestrov_momentum m ps (some mo) = some r ∧
      lookupUM r (Key.velocity i) = some (nestrovX mo i b) ∧
      (∀ env, nestrovX mo i b env
        = mo * env (Key.velocity i) + b env - env (Key.param i)) ∧
      (∀ env, env (Key.velocity i) = 0 →
        nestrovX mo i b env = b env - env (Key.param i)) ∧
      lookupUM r (Key.param i)
        = some (fun env => mo * nestrovX mo i b env + b env) := by
  obtain ⟨r, hloop, hchar⟩ := nestrovLoop_spec mo ps m hnd hall
  obtain ⟨hv, hp⟩ := hchar i hi b hb
  refine ⟨r, hloop, hv, fun env => rfl, ?_, hp⟩
  intro env hz
  unfold nestrovX
  rw [hz]
  ring

theorem nestrov_momentum_formula_witness :
    List.Nodup [0] ∧ (0 ∈ ([0] : List Nat)) ∧
    (lookupUM [(Key.param 0, fun _ => (7 : ℚ))] (Key.param 0)).isSome = true ∧
    (∃ r, apply_nestrov_momentum [(Key.param 0, fun _ => (7 : ℚ))] [0]
        (some (1/2)) = some r ∧
      lookupUM r (Key.velocity 0) = some (nestrovX (1/2) 0 (fun _ => (7 : ℚ))) ∧
      (∀ env, nestrovX (1/2) 0 (fun _ => (7 : ℚ)) env
        = 1/2 * env (Key.velocity 0) + (fun _ => (7 : ℚ)) env - env (Key.param 0)) ∧
      (∀ env, env (Key.velocity 0) = 0 →
        nestrovX (1/2) 0 (fun _ => (7 : ℚ)) env
          = (fun _ => (7 : ℚ)) env - env (Key.param 0)) ∧
      lookupUM r (Key.param 0)
        = some (fun env => 1/2 * nestrovX (1/2) 0 (fun _ => (7 : ℚ)) env
            + (fun _ => (7 : ℚ)) env)) :=
  ⟨by decide, by decide, rfl,
    nestrov_momentum_formula [(Key.param 0, fun _ => (7 : ℚ))] [0] (1/2) 0
      (fun _ => (7 : ℚ)) (by decide)
      (by intro j hj; rw [List.mem_singleton] at hj; subst hj; rfl) (by decide) rfl⟩

/-- C2: for every parameter `p` with a pending entry `b` in the update map,
the plain momentum wrapper computes `x = momentum * velocity + b`, sets
`updates[velocity] = x - p` (the delta from the old parameter value to its
new value) and `updates[param] = x` (the final new value). -/
theorem momentum_formula (m : UpdateMap) (ps : List Nat) (mo : ℚ)
    (i : Nat) (b : Expr) (hnd : ps.Nodup)
    (hall : ∀ j ∈ ps, (lookupUM m (Key.param j)).isSome)
    (hi : i ∈ ps) (hb : lookupUM m (Key.param i) = some b) :
    ∃ r, apply_momentum m ps (some mo) = some r ∧
      lookupUM r (Key.param i) = some (momentumX mo i b) ∧
      (∀ env, momentumX mo i b env = mo * env (Key.velocity i) + b env) ∧
      lookupUM r (Key.velocity i)
        = some (fun env => momentumX mo i b env - env (Key.param i)) := by
  obtain ⟨r, hloop, hchar⟩ := momentumLoop_spec mo ps m hnd hall
  obtain ⟨hp, hv⟩ := hchar i hi b hb
  exact ⟨r, hloop, hp, fun env => rfl, hv⟩

theorem momentum_formula_witness :
    List.Nodup [0] ∧ (0 ∈ ([0] : List Nat)) ∧
    (lookupUM [(Key.param 0, fun _ => (7 : ℚ))] (Key.param 0)).isSome = true ∧
    (∃ r, apply_momentum [(Key.param 0, fun _ => (7 : ℚ))] [0]
        (some (1/2)) = some r ∧
      lookupUM r (Key.param 0) = some (momentumX (1/2) 0 (fun _ => (7 : ℚ))) ∧
      (∀ env, momentumX (1/2) 0 (fun _ => (7 : ℚ)) env
        = 1/2 * env (Key.velocity 0) + (fun _ => (7 : ℚ)) env) ∧
      lookupUM r (Key.velocity 0)
        = some (fun env => momentumX (1/2) 0 (fun _ => (7 : ℚ)) env
            - env (Key.param 0))) :=
  ⟨by decide, by decide, rfl,
    momentum_formula [(Key.param 0, fun _ => (7 : ℚ))] [0] (1/2) 0
      (fun _ => (7 : ℚ)) (by decide)
      (by intro j hj; rw [List.mem_singleton] at hj; subst hj; rfl) (by decide) rfl⟩

/-- C7: wrapping the map produced by `sgd` with the plain momentum wrapper at
`momentum = 0` leaves every parameter's update entry equal to the entry the
unwrapped `sgd` rule produced, `p - lr * grad`. -/
theorem momentum_zero_preserves_sgd (grad : Nat → Expr) (ps : List Nat)
    (updates : Option UpdateMap) (lr : ℚ) (i : Nat)
    (hnd : ps.Nodup) (hi : i ∈ ps) :
    ∃ r, apply_momentum (sgd grad ps updates lr) ps (some 0) = some r ∧
      lookupUM r (Key.param i) = some (sgdEntry grad lr i) ∧
      (∀ env, sgdEntry grad lr i env = env (Key.param i) - lr * grad i env) := by
  have hall : ∀ j ∈ ps, (lookupUM (sgd grad ps updates lr) (Key.param j)).isSome := by
    intro j hj
    rw [show lookupUM (sgd grad ps updates lr) (Key.param j)
      = some (sgdEntry grad lr j) from sgdLoop_lookup_mem grad lr j ps _ hj]
    rfl
  obtain ⟨r, hloop, hchar⟩ := momentumLoop_spec 0 ps (sgd grad ps updates lr) hnd hall
  obtain ⟨hp, _⟩ := hchar i hi (sgdEntry grad lr i)
    (sgdLoop_lookup_mem grad lr i ps _ hi)
  have hx : momentumX 0 i (sgdEntry grad lr i) = sgdEntry grad lr i := by
    funext env
    unfold momentumX
    ring
  exact ⟨r, hloop, hx ▸ hp, fun env => rfl⟩

theorem momentum_zero_preserves_sgd_witness :
    List.Nodup [0] ∧ (0 ∈ ([0] : List Nat)) ∧
    (∃ r, apply_momentum (sgd (fun _ _ => 2) [0] none (1/2)) [0] (some 0)
        = some r ∧
      lookupUM r (Key.param 0) = some (sgdEntry (fun _ _ => 2) (1/2) 0) ∧
      (∀ env, sgdEntry (fun _ _ => 2) (1/2) 0 env
        = env (Key.param 0) - 1/2 * (fun _ => (2 : ℚ)) env)) :=
  ⟨by decide, by decide,
    momentum_zero_preserves_sgd (fun _ _ => 2) [0] none (1/2) 0
      (by decide) (by decide)⟩

/-- C8 counterexample: calling the plain momentum wrapper without supplying a
momentum coefficient is not an error: the Python default `momentum=0.` is
silently applied, so the call on a populated one-parameter map succeeds and
agrees with an explicit `momentum = 0`. -/
theorem momentum_without_coefficient_not_error :
    (apply_momentum [(Key.param 0, fun _ => (1 : ℚ))] [0] none).isSome = true ∧
    apply_momentum [(Key.param 0, fun _ => (1 : ℚ))] [0] none
      = apply_momentum [(Key.param 0, fun _ => (1 : ℚ))] [0] (some 0) :=
  ⟨rfl, rfl⟩

/-- C8 amended: only the Nesterov wrapper requires the caller to pass a
momentum coefficient — called without one (Python default `None`) on a
nonempty parameter list it raises inside the loop; the plain wrapper, called
without one, silently applies its default `0.` and behaves exactly like an
explicit `momentum = 0`, succeeding whenever every wrapped parameter has a
pending entry. -/
theorem momentum_coefficient_requirement (m : UpdateMap) (ps : List Nat) :
    (ps ≠ [] → apply_nestrov_momentum m ps none = none) ∧
    (apply_momentum m ps none = apply_momentum m ps (some 0)) ∧
    (ps.Nodup → (∀ j ∈ ps, (lookupUM m (Key.param j)).isSome) →
      (apply_momentum m ps none).isSome = true) := by
  refine ⟨?_, rfl, ?_⟩
  · intro hne
    cases ps with
    | nil => exact absurd rfl hne
    | cons i rest => rfl
  · intro hnd hall
    obtain ⟨r, hloop, _⟩ := momentumLoop_spec 0 ps m hnd hall
    show (momentumLoop ((none : Option ℚ).getD 0) m ps).isSome = true
    rw [show ((none : Option ℚ).getD 0) = 0 from rfl, hloop]
    rfl

theorem momentum_coefficient_requirement_witness :
    (([0] : List Nat) ≠ []) ∧
    apply_nestrov_momentum [(Key.param 0, fun _ => (1 : ℚ))] [0] none = none ∧
    (apply_momentum [(Key.param 0, fun _ => (1 : ℚ))] [0] none).isSome = true :=
  ⟨by decide,
    (momentum_coefficient_requirement [(Key.param 0, fun _ => (1 : ℚ))] [0]).1
      (by decide),
    (momentum_coefficient_requirement [(Key.param 0, fun _ => (1 : ℚ))] [0]).2.2
      (by decide) (by intro j hj; rw [List.mem_singleton] at hj; subst hj; rfl)⟩

/-- C9 counterexample: a layer list with matching first/last dimensions whose
construction nevertheless fails: `AutoEncoder.check` also asserts that every
layer has a `params` attribute, so matching dimensions alone do not make
construction succeed. -/
theorem autoencoder_matching_dims_can_fail :
    (Layer.mk 3 3 false).in_dim = (Layer.mk 3 3 false).out_dim ∧
    AutoEncoder.construct [Layer.mk 3 3 false] = none :=
  ⟨rfl, rfl⟩

/-- C9 amended: for every nonempty layer list, when the first layer's input
dimension differs from the last layer's output dimension the `AutoEncoder`
fails immediately at construction (the assertion runs from `__init__`, before
any forward pass); with matching dimensions — and every layer exposing a
`params` attribute, which `check` also asserts — construction succeeds. -/
theorem autoencoder_construct_check (layers : List Layer) (fl ll : Layer)
    (hf : layers.head? = some fl) (hl : layers.getLast? = some ll) :
    (fl.in_dim ≠ ll.out_dim → AutoEncoder.construct layers = none) ∧
    (fl.in_dim = ll.out_dim → layers.all (fun l => l.has_params) = true →
      AutoEncoder.construct layers = some ⟨layers⟩) := by
  unfold AutoEncoder.construct autoEncoderCheck
  rw [hf, hl]
  constructor
  · intro hne
    simp [hne]
  · intro he hall
    simp [he, hall]

theorem autoencoder_construct_check_witness :
    (([Layer.mk 2 5 true, Layer.mk 5 2 true] : List Layer).head?
      = some (Layer.mk 2 5 true)) ∧
    (([Layer.mk 2 5 true, Layer.mk 5 2 true] : List Layer).getLast?
      = some (Layer.mk 5 2 true)) ∧
    AutoEncoder.construct [Layer.mk 2 5 true, Layer.mk 5 2 true]
      = some ⟨[Layer.mk 2 5 true, Layer.mk 5 2 true]⟩ ∧
    AutoEncoder.construct [Layer.mk 2 5 true] = none :=
  ⟨rfl, rfl,
    (autoencoder_construct_check [Layer.mk 2 5 true, Layer.mk 5 2 true]
      (Layer.mk 2 5 true) (Layer.mk 5 2 true) rfl rfl).2 rfl rfl,
    (autoencoder_construct_check [Layer.mk 2 5 true]
      (Layer.mk 2 5 true) (Layer.mk 2 5 true) rfl rfl).1 (by decide)⟩

/-- C10: both momentum wrappers copy their input dictionary
(`updates=OrderedDict(updates)`) and write only to the copy: whenever a call
on the dictionary object at address `a` returns, the returned address is a
different object and the caller's object still holds exactly its original
entries. -/
theorem wrappers_copy_input (h : Heap) (a : Nat) (ps : List Nat)
    (momentum : Option ℚ) :
    (∀ h1 a1, apply_momentum_heap h a ps momentum = some (h1, a1) →
      Heap.get h1 a = Heap.get h a ∧ a1 ≠ a) ∧
    (∀ h1 a1, apply_nestrov_momentum_heap h a ps momentum = some (h1, a1) →
      Heap.get h1 a = Heap.get h a ∧ a1 ≠ a) := by
  constructor
  · intro h1 a1 heq
    unfold apply_momentum_heap at heq
    rcases hg : Heap.get h a with _ | d
    · rw [hg] at heq; cases heq
    · rw [hg] at heq
      have ha : a < h.dicts.length := by
        unfold Heap.get at hg
        exact (List.getElem?_eq_some.mp hg).1
      rcases hlp : heapLoop (momentumBody (momentum.getD 0)) (h.alloc d).2
          (h.alloc d).1 ps with _ | h2
      · simp only [hlp] at heq
        exact Option.noConfusion heq
      · simp only [hlp, Option.some.injEq, Prod.mk.injEq] at heq
        obtain ⟨hh1, ha1⟩ := heq
        have hne : a ≠ (h.alloc d).2 := Nat.ne_of_lt ha
        rw [← hh1, heapLoop_get_ne _ _ _ hne ps _ _ hlp,
          Heap.get_alloc_old h d a ha]
        exact ⟨hg, fun hc => hne (hc ▸ ha1.symm ▸ rfl)⟩
  · intro h1 a1 heq
    unfold apply_nestrov_momentum_heap at heq
    rcases hg : Heap.get h a with _ | d
    · rw [hg] at heq; cases heq
    · rw [hg] at heq
      have ha : a < h.dicts.length := by
        unfold Heap.get at hg
        exact (List.getElem?_eq_some.mp hg).1
      rcases hlp : heapLoop (nestrovBody momentum) (h.alloc d).2
          (h.alloc d).1 ps with _ | h2
      · simp only [hlp] at heq
        exact Option.noConfusion heq
      · simp only [hlp, Option.some.injEq, Prod.mk.injEq] at heq
        obtain ⟨hh1, ha1⟩ := heq
        have hne : a ≠ (h.alloc d).2 := Nat.ne_of_lt ha
        rw [← hh1, heapLoop_get_ne _ _ _ hne ps _ _ hlp,
          Heap.get_alloc_old h d a ha]
        exact ⟨hg, fun hc => hne (hc ▸ ha1.symm ▸ rfl)⟩

theorem wrappers_copy_input_witness :
    (∃ p, apply_momentum_heap ⟨[[(Key.param 0, fun _ => (1 : ℚ))]]⟩ 0 [0]
        (some (1/2)) = some p ∧
      Heap.get p.1 0 = Heap.get ⟨[[(Key.param 0, fun _ => (1 : ℚ))]]⟩ 0 ∧
      p.2 ≠ 0) ∧
    (∃ p, apply_nestrov_momentum_heap ⟨[[(Key.param 0, fun _ => (1 : ℚ))]]⟩ 0 [0]
        (some (1/2)) = some p ∧
      Heap.get p.1 0 = Heap.get ⟨[[(Key.param 0, fun _ => (1 : ℚ))]]⟩ 0 ∧
      p.2 ≠ 0) :=
  ⟨⟨(⟨[[(Key.param 0, fun _ => (1 : ℚ))],
        [(Key.param 0, momentumX (1/2) 0 (fun _ => (1 : ℚ))),
         (Key.velocity 0, fun env => momentumX (1/2) 0 (fun _ => (1 : ℚ)) env
            - env (Key.param 0))]]⟩, 1), rfl,
      (wrappers_copy_input ⟨[[(Key.param 0, fun _ => (1 : ℚ))]]⟩ 0 [0]
        (some (1/2))).1 _ 1 rfl⟩,
    ⟨(⟨[[(Key.param 0, fun _ => (1 : ℚ))],
        [(Key.param 0, fun env => 1/2 * nestrovX (1/2) 0 (fun _ => (1 : ℚ)) env
            + (fun _ => (1 : ℚ)) env),
         (Key.velocity 0, nestrovX (1/2) 0 (fun _ => (1 : ℚ)))]]⟩, 1), rfl,
      (wrappers_copy_input ⟨[[(Key.param 0, fun _ => (1 : ℚ))]]⟩ 0 [0]
        (some (1/2))).2 _ 1 rfl⟩⟩

end Telaugesa
